import Mathlib

/-
Verification of the VAT (Vertex Animation Texture) encoding pipeline of
src/Blender/vertex_animation.py, as a shallow embedding in Lean 4.

Floats are modelled by exact rationals (and reals where the code takes a
vector length, since that involves a square root).  Python operations that
can raise (division by zero, out-of-range indexing) are modelled by
Option-valued functions returning none at exactly the raising inputs.
-/

namespace VAT

/-- Embedding of the module-level global `chunk_width = 128`. -/
def chunk_width : ℕ := 128

/-! ## Quantizer: float_to_bytes / write_output_image -/

/-- Python `int(q)` on a float: truncation toward zero. -/
def pyTrunc (q : ℚ) : ℤ := if 0 ≤ q then ⌊q⌋ else ⌈q⌉

/-- Embedding of `float_to_bytes`: with `int_value = int(float_value * 65535)`,
`high_byte = (int_value >> 8) & 0xFF` (arithmetic shift, i.e. floor division
by 256, then nonnegative remainder) and `low_byte = int_value & 0xFF`. -/
def float_to_bytes (float_value : ℚ) : ℤ × ℤ :=
  ((pyTrunc (float_value * 65535)).fdiv 256 % 256, pyTrunc (float_value * 65535) % 256)

/-- Embedding of the byte-plane construction of `write_output_image`: the
high plane holds `high_byte / 255.0` and the low plane `low_byte / 255.0`
for each input pixel, in order. -/
def write_output_image (pixel_list : List ℚ) : List ℚ × List ℚ :=
  (pixel_list.map (fun p => ((float_to_bytes p).1 : ℚ) / 255),
   pixel_list.map (fun p => ((float_to_bytes p).2 : ℚ) / 255))

/-! ## Helper facts about the quantizer -/

lemma pyTrunc_of_nonneg {q : ℚ} (h : 0 ≤ q) : pyTrunc q = ⌊q⌋ := by
  simp [pyTrunc, h]

lemma float_to_bytes_eq_of_unit {v : ℚ} (h0 : 0 ≤ v) (h1 : v ≤ 1) :
    float_to_bytes v = (⌊v * 65535⌋ / 256, ⌊v * 65535⌋ % 256) := by
  have hq : (0 : ℚ) ≤ v * 65535 := by positivity
  have hfl : pyTrunc (v * 65535) = ⌊v * 65535⌋ := pyTrunc_of_nonneg hq
  have h0' : (0 : ℤ) ≤ ⌊v * 65535⌋ := Int.floor_nonneg.mpr hq
  have h1' : ⌊v * 65535⌋ ≤ 65535 := by
    have h : v * 65535 ≤ ((65535 : ℤ) : ℚ) := by push_cast; nlinarith
    simpa using Int.floor_le_floor h
  have hfd : (⌊v * 65535⌋).fdiv 256 = ⌊v * 65535⌋ / 256 :=
    Int.fdiv_eq_ediv _ (by norm_num)
  have hdiv0 : (0 : ℤ) ≤ ⌊v * 65535⌋ / 256 := Int.ediv_nonneg h0' (by norm_num)
  have hdiv1 : ⌊v * 65535⌋ / 256 < 256 := Int.ediv_lt_of_lt_mul (by norm_num) (by omega)
  have hmodid : (⌊v * 65535⌋ / 256) % 256 = ⌊v * 65535⌋ / 256 :=
    Int.emod_eq_of_lt hdiv0 hdiv1
  unfold float_to_bytes
  rw [hfl, hfd, hmodid]

/-- Claim C1: for every v in [0,1], the bytes produced by `float_to_bytes`
reconstruct v: highByte*256 + lowByte equals floor(v*65535), hence
(highByte*256 + lowByte)/65535 is within 1/65535 of v; and the plane values
emitted by `write_output_image` are highByte/255 and lowByte/255. -/
theorem quantizer_round_trip (v : ℚ) (h0 : 0 ≤ v) (h1 : v ≤ 1) :
    write_output_image [v] =
      ([((float_to_bytes v).1 : ℚ) / 255], [((float_to_bytes v).2 : ℚ) / 255]) ∧
    ((float_to_bytes v).1 * 256 + (float_to_bytes v).2 : ℤ) = ⌊v * 65535⌋ ∧
    0 ≤ v - (((float_to_bytes v).1 * 256 + (float_to_bytes v).2 : ℤ) : ℚ) / 65535 ∧
    v - (((float_to_bytes v).1 * 256 + (float_to_bytes v).2 : ℤ) : ℚ) / 65535 ≤ 1 / 65535 := by
  have hrec : ((float_to_bytes v).1 * 256 + (float_to_bytes v).2 : ℤ) = ⌊v * 65535⌋ := by
    rw [float_to_bytes_eq_of_unit h0 h1]
    have := Int.ediv_add_emod ⌊v * 65535⌋ 256
    omega
  refine ⟨rfl, hrec, ?_, ?_⟩
  · rw [hrec]
    have hle : ((⌊v * 65535⌋ : ℤ) : ℚ) ≤ v * 65535 := Int.floor_le _
    have hd : ((⌊v * 65535⌋ : ℤ) : ℚ) / 65535 ≤ v := by
      rw [div_le_iff₀ (by norm_num : (0:ℚ) < 65535)]
      linarith
    linarith
  · rw [hrec]
    have hlt : v * 65535 < ((⌊v * 65535⌋ : ℤ) : ℚ) + 1 := Int.lt_floor_add_one _
    have hd : v ≤ (((⌊v * 65535⌋ : ℤ) : ℚ) + 1) / 65535 := by
      rw [le_div_iff₀ (by norm_num : (0:ℚ) < 65535)]
      linarith
    rw [add_div] at hd
    linarith

/-- Witness for C1 at v = 1/3. -/
theorem quantizer_round_trip_witness :
    (0 ≤ (1/3 : ℚ) ∧ (1/3 : ℚ) ≤ 1) ∧
    (write_output_image [(1/3 : ℚ)] =
      ([((float_to_bytes (1/3)).1 : ℚ) / 255], [((float_to_bytes (1/3)).2 : ℚ) / 255]) ∧
    ((float_to_bytes (1/3)).1 * 256 + (float_to_bytes (1/3)).2 : ℤ) = ⌊(1/3 : ℚ) * 65535⌋ ∧
    0 ≤ (1/3 : ℚ) - (((float_to_bytes (1/3)).1 * 256 + (float_to_bytes (1/3)).2 : ℤ) : ℚ) / 65535 ∧
    (1/3 : ℚ) - (((float_to_bytes (1/3)).1 * 256 + (float_to_bytes (1/3)).2 : ℤ) : ℚ) / 65535 ≤ 1 / 65535) :=
  ⟨⟨by norm_num, by norm_num⟩, quantizer_round_trip (1/3) (by norm_num) (by norm_num)⟩

/-- Claim C9 (refuted): `float_to_bytes` does not clamp.  At v = 2 the code
produces (255, 254), i.e. the 16-bit value 65534, strictly below the
saturated value 65535 reached already at v = 1: the outputs do not
monotonically saturate at the range ends. -/
theorem float_to_bytes_no_clamp :
    float_to_bytes 2 = (255, 254) ∧ float_to_bytes 1 = (255, 255) ∧
    (255 * 256 + 254 : ℤ) < 255 * 256 + 255 := by
  have h2 : pyTrunc ((2:ℚ) * 65535) = 131070 := by
    rw [pyTrunc_of_nonneg (by norm_num)]
    have h : ((2:ℚ) * 65535) = ((131070 : ℤ) : ℚ) := by norm_num
    rw [h, Int.floor_intCast]
  have h1 : pyTrunc ((1:ℚ) * 65535) = 65535 := by
    rw [pyTrunc_of_nonneg (by norm_num)]
    have h : ((1:ℚ) * 65535) = ((65535 : ℤ) : ℚ) := by norm_num
    rw [h, Int.floor_intCast]
  refine ⟨?_, ?_, by norm_num⟩
  · unfold float_to_bytes
    rw [h2]
    decide
  · unfold float_to_bytes
    rw [h1]
    decide

/-! ## AtlasUVGenerator: the UV loop of create_export_mesh_object -/

/-- Embedding of the pixel-width choice in `create_export_mesh_object`:
with `chunks = len(me.vertices) // texture_size` and
`chunk_number = loop.vertex_index // texture_size`,
`current_pixel_width = texture_size if chunk_number < chunks else remainder`. -/
def current_pixel_width (vertex_count texture_size idx : ℕ) : ℕ :=
  if idx / texture_size < vertex_count / texture_size then texture_size
  else vertex_count % texture_size

/-- Embedding of the u/v computation of the loop body of
`create_export_mesh_object`.  Returns none exactly where the Python code
raises ZeroDivisionError: `1.5 / current_pixel_width` when the width is 0,
and the division by `current_pixel_width - 1` when the width is 1. -/
def export_mesh_uv (vertex_count texture_size idx : ℕ) : Option (ℚ × ℚ) :=
  let w := current_pixel_width vertex_count texture_size idx
  if w = 0 then none
  else if w = 1 then none
  else
    let pixel_center_offset : ℚ := (3/2) / w
    let scale_factor : ℚ := 1 - 2 * pixel_center_offset
    some (((idx / texture_size : ℕ) : ℚ) +
      scale_factor * (((idx % texture_size : ℕ) : ℚ) / ((w : ℚ) - 1)) +
      pixel_center_offset, 128/255)

/-- Claim C2 (code bug): for vertexCount 129 and the default chunk width 128,
vertex index 128 falls in a partial chunk of width 1, and the UV computation
divides by `current_pixel_width - 1 = 0`, raising ZeroDivisionError
(modelled as none) instead of producing u = chunkNumber + 0.5. -/
theorem export_mesh_uv_width_one_raises :
    current_pixel_width 129 chunk_width 128 = 1 ∧
    export_mesh_uv 129 chunk_width 128 = none := by
  constructor <;> decide

/-- Claim C4 (counterexample): with vertexCount 130 and chunk width 128, the
last chunk has width 2 and u strictly DECREASES with indexInChunk: index 128
maps to u = 7/4 while index 129 maps to u = 5/4. -/
theorem export_mesh_uv_not_increasing :
    export_mesh_uv 130 chunk_width 128 = some (7/4, 128/255) ∧
    export_mesh_uv 130 chunk_width 129 = some (5/4, 128/255) ∧
    ¬ ((7/4 : ℚ) < 5/4) := by
  refine ⟨?_, ?_, by norm_num⟩ <;>
    · unfold export_mesh_uv current_pixel_width chunk_width
      norm_num

lemma current_pixel_width_congr {vc C i j : ℕ} (h : i / C = j / C) :
    current_pixel_width vc C i = current_pixel_width vc C j := by
  unfold current_pixel_width
  rw [h]

lemma mod_lt_current_pixel_width {vc C j : ℕ} (hC : 0 < C) (hj : j < vc) :
    j % C < current_pixel_width vc C j := by
  unfold current_pixel_width
  by_cases h : j / C < vc / C
  · rw [if_pos h]
    exact Nat.mod_lt _ hC
  · rw [if_neg h]
    have hge : vc / C ≤ j / C := Nat.le_of_not_lt h
    have h1 : j % C + C * (j / C) = j := Nat.mod_add_div j C
    have h2 : vc % C + C * (vc / C) = vc := Nat.mod_add_div vc C
    have h3 : C * (vc / C) ≤ C * (j / C) := Nat.mul_le_mul_left C hge
    omega

lemma u_term_bounds {w t : ℚ} (hw : 4 ≤ w) (ht0 : 0 ≤ t) (ht1 : t ≤ 1) :
    0 < (1 - 2 * ((3/2) / w)) * t + (3/2) / w ∧
    (1 - 2 * ((3/2) / w)) * t + (3/2) / w < 1 := by
  have hw0 : (0 : ℚ) < w := by linarith
  have hpco : (0 : ℚ) < (3/2) / w := div_pos (by norm_num) hw0
  have h2pco : 2 * ((3/2) / w) = 3 / w := by ring
  have h3w : (3 : ℚ) / w ≤ 3 / 4 := by
    rw [div_le_div_iff₀ hw0 (by norm_num)]
    linarith
  have hsf : (1 : ℚ) / 4 ≤ 1 - 2 * ((3/2) / w) := by
    rw [h2pco]
    linarith
  constructor
  · nlinarith
  · have hle : (1 - 2 * ((3/2) / w)) * t ≤ 1 - 2 * ((3/2) / w) :=
      mul_le_of_le_one_right (by linarith) ht1
    have : (1 - 2 * ((3/2) / w)) + (3/2) / w = 1 - (3/2) / w := by
      rw [h2pco]
      ring
    linarith

lemma u_term_mono {w a b : ℚ} (hw : 4 ≤ w) (hab : a < b) :
    (1 - 2 * ((3/2) / w)) * (a / (w - 1)) < (1 - 2 * ((3/2) / w)) * (b / (w - 1)) := by
  have hw0 : (0 : ℚ) < w := by linarith
  have hw1 : (0 : ℚ) < w - 1 := by linarith
  have h3w : (3 : ℚ) / w ≤ 3 / 4 := by
    rw [div_le_div_iff₀ hw0 (by norm_num)]
    linarith
  have hsf : (0 : ℚ) < 1 - 2 * ((3/2) / w) := by
    have h2pco : 2 * ((3/2) / w) = 3 / w := by ring
    rw [h2pco]
    linarith
  have hdiv : a / (w - 1) < b / (w - 1) := by
    rw [div_lt_div_iff_of_pos_right hw1]
    exact hab
  exact mul_lt_mul_of_pos_left hdiv hsf

/-- Claim C4 (amended): the UV assignment is a function of the vertex index
(determinism is definitional), and within every chunk whose
currentPixelWidth is at least 4, u strictly increases with indexInChunk and
stays strictly between chunkNumber and chunkNumber + 1, so u gains exactly
the baseline 1 at each chunk boundary; v is the constant 128/255. -/
theorem export_mesh_uv_mono (vc C i j : ℕ) (hC : 0 < C)
    (hi : i < vc) (hj : j < vc)
    (hchunk : i / C = j / C)
    (hij : i % C < j % C)
    (hw : 4 ≤ current_pixel_width vc C i) :
    ∃ ui uj, export_mesh_uv vc C i = some (ui, 128/255) ∧
      export_mesh_uv vc C j = some (uj, 128/255) ∧
      ((i / C : ℕ) : ℚ) < ui ∧ ui < uj ∧ uj < ((i / C : ℕ) : ℚ) + 1 := by
  set w := current_pixel_width vc C i with hwdef
  have hwj : current_pixel_width vc C j = w := (current_pixel_width_congr hchunk).symm
  have hw0 : w ≠ 0 := by omega
  have hw1 : w ≠ 1 := by omega
  have hbj : j % C < w := by
    rw [hwdef, current_pixel_width_congr hchunk]
    exact mod_lt_current_pixel_width hC hj
  have hwq : (4 : ℚ) ≤ (w : ℕ) := by exact_mod_cast hw
  have hwq1 : (0 : ℚ) < (w : ℚ) - 1 := by
    have : (4 : ℚ) ≤ (w : ℚ) := hwq
    linarith
  have hta0 : (0 : ℚ) ≤ ((i % C : ℕ) : ℚ) / ((w : ℚ) - 1) :=
    div_nonneg (by positivity) (le_of_lt hwq1)
  have hta1 : ((i % C : ℕ) : ℚ) / ((w : ℚ) - 1) ≤ 1 := by
    rw [div_le_one hwq1]
    have hn : i % C + 1 ≤ w := lt_trans hij hbj
    have h1 : ((i % C : ℕ) : ℚ) + 1 ≤ (w : ℚ) := by exact_mod_cast hn
    linarith
  have htb0 : (0 : ℚ) ≤ ((j % C : ℕ) : ℚ) / ((w : ℚ) - 1) :=
    div_nonneg (by positivity) (le_of_lt hwq1)
  have htb1 : ((j % C : ℕ) : ℚ) / ((w : ℚ) - 1) ≤ 1 := by
    rw [div_le_one hwq1]
    have hn : j % C + 1 ≤ w := hbj
    have h1 : ((j % C : ℕ) : ℚ) + 1 ≤ (w : ℚ) := by exact_mod_cast hn
    linarith
  refine ⟨((i / C : ℕ) : ℚ) + (1 - 2 * ((3/2) / w)) * (((i % C : ℕ) : ℚ) / ((w : ℚ) - 1)) + (3/2) / w,
      ((i / C : ℕ) : ℚ) + (1 - 2 * ((3/2) / w)) * (((j % C : ℕ) : ℚ) / ((w : ℚ) - 1)) + (3/2) / w,
      ?_, ?_, ?_, ?_, ?_⟩
  · unfold export_mesh_uv
    rw [← hwdef, if_neg hw0, if_neg hw1]
  · unfold export_mesh_uv
    rw [hwj, if_neg hw0, if_neg hw1, hchunk]
  · have := (u_term_bounds hwq hta0 hta1).1
    linarith
  · have hab : ((i % C : ℕ) : ℚ) < ((j % C : ℕ) : ℚ) := by exact_mod_cast hij
    have hmono := u_term_mono hwq hab
    linarith
  · have := (u_term_bounds hwq htb0 htb1).2
    linarith

/-- Witness for the amended C4 at vc = 256, C = 128, indices 0 and 1. -/
theorem export_mesh_uv_mono_witness :
    (0 < 128 ∧ 0 < 256 ∧ 1 < 256 ∧ (0:ℕ) / 128 = 1 / 128 ∧ 0 % 128 < 1 % 128 ∧
      4 ≤ current_pixel_width 256 128 0) ∧
    (∃ ui uj, export_mesh_uv 256 128 0 = some (ui, 128/255) ∧
      export_mesh_uv 256 128 1 = some (uj, 128/255) ∧
      ((0 / 128 : ℕ) : ℚ) < ui ∧ ui < uj ∧ uj < ((0 / 128 : ℕ) : ℚ) + 1) :=
  ⟨⟨by decide, by decide, by decide, by decide, by decide, by decide⟩,
   export_mesh_uv_mono 256 128 0 1 (by decide) (by decide) (by decide) (by decide)
     (by decide) (by decide)⟩

/-- Claim C10: when the vertex count is an exact positive multiple of the
chunk width, every valid vertex index lands in a full chunk: chunkNumber is
strictly below chunks, currentPixelWidth is the chunk width, the remainder
branch is unreachable and the UV computation succeeds (no zero
denominator). -/
theorem export_mesh_uv_exact_multiple (vertex_count idx : ℕ)
    (hdvd : chunk_width ∣ vertex_count) (hidx : idx < vertex_count) :
    idx / chunk_width < vertex_count / chunk_width ∧
    current_pixel_width vertex_count chunk_width idx = chunk_width ∧
    (export_mesh_uv vertex_count chunk_width idx).isSome = true := by
  obtain ⟨k, hk⟩ := hdvd
  have hlt : idx / chunk_width < vertex_count / chunk_width := by
    subst hk
    unfold chunk_width at *
    omega
  have hcpw : current_pixel_width vertex_count chunk_width idx = chunk_width := by
    unfold current_pixel_width
    rw [if_pos hlt]
  refine ⟨hlt, hcpw, ?_⟩
  simp only [export_mesh_uv, hcpw]
  norm_num [chunk_width]

/-- Witness for C10 at vertexCount = 256, idx = 255. -/
theorem export_mesh_uv_exact_multiple_witness :
    (chunk_width ∣ 256 ∧ 255 < 256) ∧
    (255 / chunk_width < 256 / chunk_width ∧
     current_pixel_width 256 chunk_width 255 = chunk_width ∧
     (export_mesh_uv 256 chunk_width 255).isSome = true) :=
  ⟨⟨by decide, by decide⟩, export_mesh_uv_exact_multiple 256 255 (by decide) (by decide)⟩

/-! ## ChunkedImageBuilder: create_and_save_image -/

/-- `chunk_count = width // chunk_width` in `create_and_save_image`
(the chunk width appears as a parameter C here). -/
def chunk_count (width C : ℕ) : ℕ := width / C

/-- `remainder_width = width % chunk_width` in `create_and_save_image`. -/
def remainder_width (width C : ℕ) : ℕ := width % C

/-- Number of chunks emitted by the loop
`for i in range(chunk_count + (1 if remainder_width else 0))`. -/
def num_chunks (width C : ℕ) : ℕ :=
  chunk_count width C + (if remainder_width width C = 0 then 0 else 1)

/-- Logical pixel width of chunk i, i.e. the length of the slice
`byte_list[start_index:end_index]` per row divided by the RGBA stride:
`chunk_width` in general, `remainder_width` when `i == chunk_count`. -/
def chunk_logical_width (width C i : ℕ) : ℕ :=
  if i = chunk_count width C then remainder_width width C else C

/-- First source column of chunk i, from
`start_index = (y * width + i * chunk_width) * 4`. -/
def chunk_start_col (C i : ℕ) : ℕ := i * C

/-- Claim C3: for a plane of logical width W and chunk width C > 0, the
builder emits W/C chunks plus one extra iff W mod C is positive, the chunk
logical widths (padding excluded) sum to exactly W, and every source column
below W lies in the column range of exactly one emitted chunk. -/
theorem chunk_coverage (W C : ℕ) (hC : 0 < C) :
    num_chunks W C = W / C + (if 0 < W % C then 1 else 0) ∧
    (Finset.range (num_chunks W C)).sum (chunk_logical_width W C) = W ∧
    ∀ c < W, ∃! i, i < num_chunks W C ∧
      chunk_start_col C i ≤ c ∧ c < chunk_start_col C i + chunk_logical_width W C i := by
  have hdm : C * (W / C) + W % C = W := Nat.div_add_mod W C
  have hfull : ∀ i ∈ Finset.range (chunk_count W C), chunk_logical_width W C i = C := by
    intro i hi
    rw [Finset.mem_range] at hi
    unfold chunk_logical_width
    rw [if_neg (by unfold chunk_count at *; omega)]
  have hqsum : (Finset.range (chunk_count W C)).sum (chunk_logical_width W C)
      = chunk_count W C * C := by
    rw [Finset.sum_congr rfl hfull, Finset.sum_const, Finset.card_range, smul_eq_mul]
  refine ⟨?_, ?_, ?_⟩
  · unfold num_chunks
    by_cases hr : remainder_width W C = 0
    · rw [if_pos hr]
      unfold remainder_width at hr
      rw [if_neg (by omega)]
      unfold chunk_count
      rfl
    · rw [if_neg hr]
      unfold remainder_width at hr
      rw [if_pos (by omega)]
      unfold chunk_count
      rfl
  · unfold num_chunks
    by_cases hr : remainder_width W C = 0
    · rw [if_pos hr, Nat.add_zero, hqsum]
      unfold remainder_width at hr
      unfold chunk_count
      rw [mul_comm]
      omega
    · rw [if_neg hr, Finset.sum_range_succ, hqsum]
      unfold chunk_logical_width
      rw [if_pos rfl]
      unfold chunk_count remainder_width
      rw [mul_comm]
      exact hdm
  · intro c hc
    have hle : chunk_start_col C (c / C) ≤ c := Nat.div_mul_le_self c C
    have hcq : c / C ≤ W / C := Nat.div_le_div_right (le_of_lt hc)
    have hmem : c / C < num_chunks W C := by
      unfold num_chunks chunk_count remainder_width
      by_cases hr : W % C = 0
      · rw [if_pos hr]
        rcases Nat.lt_or_ge (c / C) (W / C) with h | h
        · omega
        · exfalso
          have heq : c / C = W / C := le_antisymm hcq h
          have hge : W / C * C ≤ c := by
            rw [← heq]
            exact Nat.div_mul_le_self c C
          rw [mul_comm] at hge
          omega
      · rw [if_neg hr]
        omega
    have hlt : c < chunk_start_col C (c / C) + chunk_logical_width W C (c / C) := by
      unfold chunk_start_col chunk_logical_width chunk_count remainder_width
      by_cases hq : c / C = W / C
      · rw [if_pos hq, hq, mul_comm]
        omega
      · rw [if_neg hq]
        have h1 : C * (c / C) + c % C = c := Nat.div_add_mod c C
        have h2 : c % C < C := Nat.mod_lt c hC
        calc c = C * (c / C) + c % C := h1.symm
          _ < C * (c / C) + C := Nat.add_lt_add_left h2 _
          _ = c / C * C + C := by rw [mul_comm]
    refine ⟨c / C, ⟨hmem, hle, hlt⟩, ?_⟩
    intro y hy
    obtain ⟨hy1, hy2, hy3⟩ := hy
    have hwle : chunk_logical_width W C y ≤ C := by
      unfold chunk_logical_width remainder_width
      by_cases hq : y = chunk_count W C
      · rw [if_pos hq]
        exact le_of_lt (Nat.mod_lt W hC)
      · rw [if_neg hq]
    have : c / C = y := by
      apply Nat.div_eq_of_lt_le
      · exact hy2
      · unfold chunk_start_col at hy2 hy3
        calc c < y * C + chunk_logical_width W C y := hy3
          _ ≤ y * C + C := Nat.add_le_add_left hwle _
          _ = (y + 1) * C := by ring
    exact this.symm

/-- Witness for C3 at W = 130, C = 128. -/
theorem chunk_coverage_witness :
    0 < 128 ∧
    (num_chunks 130 128 = 130 / 128 + (if 0 < 130 % 128 then 1 else 0) ∧
    (Finset.range (num_chunks 130 128)).sum (chunk_logical_width 130 128) = 130 ∧
    ∀ c < 130, ∃! i, i < num_chunks 130 128 ∧
      chunk_start_col 128 i ≤ c ∧ c < chunk_start_col 128 i + chunk_logical_width 130 128 i) :=
  ⟨by decide, chunk_coverage 130 128 (by decide)⟩

/-! ## OffsetNormalizer: get_vertex_data -/

/-- A 3-component vector with exact rational components. -/
structure Vec3 where
  x : ℚ
  y : ℚ
  z : ℚ
deriving DecidableEq

/-- One vertex of an evaluated frame mesh, carrying `v.co` and `v.normal`. -/
structure VertexSample where
  co : Vec3
  normal : Vec3
deriving DecidableEq

/-- Componentwise vector difference, as in `v.co - original[v.index].co`. -/
def vsub (a b : Vec3) : Vec3 := ⟨a.x - b.x, a.y - b.y, a.z - b.z⟩

/-- Euclidean length of a vector (mathutils `.length`). -/
noncomputable def vlen (a : Vec3) : ℝ :=
  Real.sqrt (((a.x ^ 2 + a.y ^ 2 + a.z ^ 2 : ℚ) : ℝ))

/-- Offsets `v.co - original[v.index].co` of one frame against the rest
frame, pairing vertex i of the frame with vertex i of the rest frame.
Returns none exactly when the frame has more vertices than the rest frame,
where the Python loop raises an unguarded IndexError on
`original[v.index]`. -/
def frame_offsets : List VertexSample → List VertexSample → Option (List Vec3)
  | _, [] => some []
  | [], _ :: _ => none
  | o :: os, v :: vs => (frame_offsets os vs).map (fun t => vsub v.co o.co :: t)

/-- The offsets of every frame, iterating like both loops of
`get_vertex_data` do over `reversed(meshes)`; none as soon as one frame
raises. -/
def all_frame_offsets (original : List VertexSample) :
    List (List VertexSample) → Option (List (List Vec3))
  | [] => some []
  | me :: rest =>
    match frame_offsets original me, all_frame_offsets original rest with
    | some o, some os => some (o :: os)
    | _, _ => none

/-- The running maximum of the first loop of `get_vertex_data`: start at 0
and replace the accumulator whenever `offset_length > max_offset_length`. -/
noncomputable def max_offset_length (lengths : List ℝ) : ℝ :=
  lengths.foldl (fun acc len => if acc < len then len else acc) 0

/-- One output row of the offsets plane: for each offset divided by the
scale factor, the channels ((x+1)*0.5, (-y+1)*0.5, (z+1)*0.5, 1). -/
noncomputable def offset_row (s : ℝ) (offs : List Vec3) : List ℝ :=
  offs.flatMap (fun o =>
    [((o.x : ℝ) / s + 1) * 0.5, (-((o.y : ℝ) / s) + 1) * 0.5, ((o.z : ℝ) / s + 1) * 0.5, 1])

/-- One output row of the normals plane: channels
((nx+1)*0.5, (ny+1)*0.5, (nz+1)*0.5, 1). -/
noncomputable def normal_row (me : List VertexSample) : List ℝ :=
  me.flatMap (fun v =>
    [((v.normal.x : ℝ) + 1) * 0.5, ((v.normal.y : ℝ) + 1) * 0.5,
     ((v.normal.z : ℝ) + 1) * 0.5, 1])

/-- Embedding of `get_vertex_data`.  Both passes run over
`reversed(meshes)`; the first finds the maximum offset length (replaced by
1 when it is 0 and reported as the scale factor, third component), the
second emits the offsets and normals planes row by row.  none models the
unguarded IndexError on a frame longer than the rest frame, and the
IndexError of `meshes[0]` on an empty input. -/
noncomputable def get_vertex_data (meshes : List (List VertexSample)) :
    Option (List ℝ × List ℝ × ℝ) :=
  match meshes with
  | [] => none
  | original :: rest =>
    match all_frame_offsets original (original :: rest).reverse with
    | none => none
    | some off_frames =>
      let m := max_offset_length ((off_frames.flatten).map vlen)
      let s : ℝ := if m = 0 then 1 else m
      some ((off_frames.map (offset_row s)).flatten,
        (((original :: rest).reverse).map normal_row).flatten, s)

/-! ### Helper lemmas about get_vertex_data -/

lemma frame_offsets_eq_zipWith {original me : List VertexSample}
    (h : me.length ≤ original.length) :
    frame_offsets original me =
      some (List.zipWith (fun v o => vsub v.co o.co) me original) := by
  induction me generalizing original with
  | nil => cases original <;> rfl
  | cons v vs ih =>
    cases original with
    | nil => simp at h
    | cons o os =>
      have h2 : vs.length ≤ os.length := by simpa using h
      simp only [frame_offsets, ih h2]
      rfl

lemma all_frame_offsets_eq_some {original : List VertexSample}
    {g : List VertexSample → List Vec3} :
    ∀ {l : List (List VertexSample)},
      (∀ me ∈ l, frame_offsets original me = some (g me)) →
      all_frame_offsets original l = some (l.map g)
  | [], _ => rfl
  | me :: rest, h => by
    have h1 : frame_offsets original me = some (g me) := h me (by simp)
    have h2 : all_frame_offsets original rest = some (rest.map g) :=
      all_frame_offsets_eq_some (fun x hx => h x (by simp [hx]))
    simp only [all_frame_offsets, h1, h2, List.map_cons]

lemma vsub_self (a : Vec3) : vsub a a = ⟨0, 0, 0⟩ := by
  simp [vsub]

lemma vlen_zero : vlen ⟨0, 0, 0⟩ = 0 := by
  simp [vlen]

lemma zipWith_vsub_self : ∀ {me original : List VertexSample},
    me.map VertexSample.co = original.map VertexSample.co →
    List.zipWith (fun v o => vsub v.co o.co) me original =
      List.replicate me.length ⟨0, 0, 0⟩
  | [], _, _ => rfl
  | _ :: _, [], h => by simp at h
  | v :: vs, o :: os, h => by
    simp only [List.map_cons, List.cons.injEq] at h
    obtain ⟨hco, htl⟩ := h
    simp only [List.zipWith_cons_cons, List.length_cons, List.replicate_succ,
      List.cons.injEq]
    exact ⟨by rw [hco, vsub_self], zipWith_vsub_self htl⟩

lemma frame_offsets_zero {original me : List VertexSample}
    (h : me.map VertexSample.co = original.map VertexSample.co) :
    frame_offsets original me = some (List.replicate me.length ⟨0, 0, 0⟩) := by
  have hlen : me.length ≤ original.length := by
    have := congrArg List.length h
    simpa using Nat.le_of_eq this
  rw [frame_offsets_eq_zipWith hlen, zipWith_vsub_self h]

lemma max_offset_length_of_all_zero {ls : List ℝ} (h : ∀ x ∈ ls, x = 0) :
    max_offset_length ls = 0 := by
  unfold max_offset_length
  induction ls with
  | nil => rfl
  | cons x rest ih =>
    have hx : x = 0 := h x (by simp)
    rw [List.foldl_cons, hx, if_neg (lt_irrefl 0)]
    exact ih (fun y hy => h y (by simp [hy]))

lemma offset_row_zero_replicate (n : ℕ) :
    offset_row 1 (List.replicate n ⟨0, 0, 0⟩) =
      (List.replicate n ([0.5, 0.5, 0.5, 1] : List ℝ)).flatten := by
  induction n with
  | zero => rfl
  | succ n ih =>
    simp only [List.replicate_succ, offset_row, List.flatMap_cons, List.flatten_cons]
    rw [← offset_row, ih]
    norm_num

lemma flatten_replicate_flatten {α : Type} (k L : ℕ) (q : List α) :
    (List.replicate k ((List.replicate L q).flatten)).flatten =
      (List.replicate (k * L) q).flatten := by
  induction k with
  | zero => simp
  | succ k ih =>
    rw [List.replicate_succ, List.flatten_cons, ih, Nat.succ_mul, Nat.add_comm,
      List.replicate_add, List.flatten_append]

/-- Claim C5: on an animation sequence whose every frame has the same
vertex positions as the rest frame, `get_vertex_data` succeeds, reports
scale factor 1, and the offsets plane consists of one (0.5, 0.5, 0.5, 1)
quadruple per vertex per frame — every x, y, z offset channel is 0.5. -/
theorem get_vertex_data_static (original : List VertexSample)
    (rest : List (List VertexSample))
    (h : ∀ me ∈ original :: rest,
      me.map VertexSample.co = original.map VertexSample.co) :
    ∃ norms, get_vertex_data (original :: rest) =
      some (((List.replicate ((rest.length + 1) * original.length)
        ([0.5, 0.5, 0.5, 1] : List ℝ)).flatten), norms, 1) := by
  have hall : ∀ me ∈ (original :: rest).reverse,
      frame_offsets original me =
        some (List.replicate me.length (⟨0, 0, 0⟩ : Vec3)) := by
    intro me hme
    exact frame_offsets_zero (h me (List.mem_reverse.mp hme))
  have hafo : all_frame_offsets original (original :: rest).reverse =
      some (((original :: rest).reverse).map
        (fun me => List.replicate me.length (⟨0, 0, 0⟩ : Vec3))) :=
    all_frame_offsets_eq_some hall
  have hzero : ∀ x ∈ (((((original :: rest).reverse).map
      (fun me => List.replicate me.length (⟨0, 0, 0⟩ : Vec3))).flatten).map vlen),
      x = 0 := by
    intro x hx
    rw [List.mem_map] at hx
    obtain ⟨v, hv, rfl⟩ := hx
    rw [List.mem_flatten] at hv
    obtain ⟨l, hl, hvl⟩ := hv
    rw [List.mem_map] at hl
    obtain ⟨me, _, rfl⟩ := hl
    rw [List.eq_of_mem_replicate hvl]
    exact vlen_zero
  have hmax := max_offset_length_of_all_zero hzero
  have hlenr : ∀ me ∈ (original :: rest).reverse, me.length = original.length := by
    intro me hme
    have := congrArg List.length (h me (List.mem_reverse.mp hme))
    simpa using this
  have hrow : ∀ me ∈ (original :: rest).reverse,
      offset_row 1 (List.replicate me.length (⟨0, 0, 0⟩ : Vec3)) =
        (List.replicate original.length ([0.5, 0.5, 0.5, 1] : List ℝ)).flatten := by
    intro me hme
    rw [hlenr me hme, offset_row_zero_replicate]
  have hrow2 : ∀ l ∈ ((original :: rest).reverse).map
      (fun me => List.replicate me.length (⟨0, 0, 0⟩ : Vec3)),
      offset_row 1 l =
        (List.replicate original.length ([0.5, 0.5, 0.5, 1] : List ℝ)).flatten := by
    intro l hl
    rw [List.mem_map] at hl
    obtain ⟨me, hme, rfl⟩ := hl
    exact hrow me hme
  refine ⟨((((original :: rest).reverse).map normal_row).flatten), ?_⟩
  simp only [get_vertex_data, hafo]
  rw [hmax, if_pos rfl]
  rw [List.map_congr_left hrow2, List.map_const', List.length_map,
    List.length_reverse, List.length_cons, flatten_replicate_flatten]

/-- Witness for C5: two identical one-vertex frames. -/
theorem get_vertex_data_static_witness :
    (∀ me ∈ [[(⟨⟨1, 2, 3⟩, ⟨0, 0, 1⟩⟩ : VertexSample)],
        [(⟨⟨1, 2, 3⟩, ⟨0, 0, 1⟩⟩ : VertexSample)]],
      me.map VertexSample.co =
        [(⟨⟨1, 2, 3⟩, ⟨0, 0, 1⟩⟩ : VertexSample)].map VertexSample.co) ∧
    (∃ norms, get_vertex_data [[(⟨⟨1, 2, 3⟩, ⟨0, 0, 1⟩⟩ : VertexSample)],
        [(⟨⟨1, 2, 3⟩, ⟨0, 0, 1⟩⟩ : VertexSample)]] =
      some (((List.replicate
          (([[(⟨⟨1, 2, 3⟩, ⟨0, 0, 1⟩⟩ : VertexSample)]].length + 1) *
            [(⟨⟨1, 2, 3⟩, ⟨0, 0, 1⟩⟩ : VertexSample)].length)
          ([0.5, 0.5, 0.5, 1] : List ℝ)).flatten), norms, 1)) :=
  ⟨by decide, get_vertex_data_static _ _ (by decide)⟩

lemma offset_row_length (s : ℝ) (os : List Vec3) :
    (offset_row s os).length = 4 * os.length := by
  unfold offset_row
  induction os with
  | nil => rfl
  | cons o os ih =>
    rw [List.flatMap_cons, List.length_append, ih]
    simp only [List.length_cons, List.length_nil]
    omega

lemma normal_row_length (me : List VertexSample) :
    (normal_row me).length = 4 * me.length := by
  unfold normal_row
  induction me with
  | nil => rfl
  | cons v vs ih =>
    rw [List.flatMap_cons, List.length_append, ih]
    simp only [List.length_cons, List.length_nil]
    omega

lemma flatten_row {α : Type} (L : ℕ) :
    ∀ (ls : List (List α)) (j : ℕ), (∀ l ∈ ls, l.length = L) → j < ls.length →
      ((ls.flatten).drop (j * L)).take L = ls.getD j []
  | [], j, _, hj => absurd hj (by simp)
  | a :: ls, 0, h, _ => by
    have ha : a.length = L := h a (by simp)
    rw [Nat.zero_mul, List.drop_zero, List.flatten_cons, List.take_left' ha,
      List.getD_cons_zero]
  | a :: ls, j + 1, h, hj => by
    have ha : a.length = L := h a (by simp)
    have hstep : (j + 1) * L = a.length + j * L := by
      rw [ha]
      ring
    rw [List.flatten_cons, hstep, List.drop_append, List.getD_cons_succ]
    exact flatten_row L ls j (fun l hl => h l (by simp [hl])) (by simpa using hj)

/-- Claim C6: the offsets and normals planes of `get_vertex_data` list the
frames in reversed order: output row j (of 4n floats, n the vertex count)
is built from input frame frameCount - 1 - j, so row 0 comes from the last
frame and the last row from frame 0. -/
theorem get_vertex_data_rows_reversed (meshes : List (List VertexSample))
    (n j : ℕ) (hne : meshes ≠ [])
    (hlen : ∀ me ∈ meshes, me.length = n) (hj : j < meshes.length) :
    ∃ offs norms s ofr,
      get_vertex_data meshes = some (offs, norms, s) ∧
      frame_offsets (meshes.headD []) (meshes.getD (meshes.length - 1 - j) []) =
        some ofr ∧
      (offs.drop (j * (4 * n))).take (4 * n) = offset_row s ofr ∧
      (norms.drop (j * (4 * n))).take (4 * n) =
        normal_row (meshes.getD (meshes.length - 1 - j) []) := by
  obtain ⟨original, rest, rfl⟩ : ∃ o r, meshes = o :: r := by
    cases meshes with
    | nil => exact absurd rfl hne
    | cons o r => exact ⟨o, r, rfl⟩
  have horig : original.length = n := hlen original (by simp)
  have hlenr : ∀ me ∈ (original :: rest).reverse, me.length = n := by
    intro me hme
    exact hlen me (List.mem_reverse.mp hme)
  have hall : ∀ me ∈ (original :: rest).reverse,
      frame_offsets original me =
        some (List.zipWith (fun v o => vsub v.co o.co) me original) := by
    intro me hme
    exact frame_offsets_eq_zipWith (by rw [hlenr me hme, horig])
  have hafo := all_frame_offsets_eq_some hall
  have hjr : j < ((original :: rest).reverse).length := by simpa using hj
  have hidx : (original :: rest).length - 1 - j < (original :: rest).length := by
    simp only [List.length_cons]
    omega
  have hbase : ((original :: rest).reverse).getD j [] =
      (original :: rest).getD ((original :: rest).length - 1 - j) [] := by
    rw [List.getD_eq_getElem _ _ hjr, List.getD_eq_getElem _ _ hidx,
      List.getElem_reverse]
  have hbase_mem : ((original :: rest).reverse).getD j [] ∈
      (original :: rest).reverse := by
    rw [List.getD_eq_getElem _ _ hjr]
    exact List.getElem_mem hjr
  simp only [get_vertex_data, hafo]
  refine ⟨_, _, _,
    List.zipWith (fun v o => vsub v.co o.co)
      (((original :: rest).reverse).getD j []) original, rfl, ?_, ?_, ?_⟩
  · rw [List.headD_cons, ← hbase]
    exact hall _ hbase_mem
  · rw [flatten_row (4 * n) _ j ?_ (by simpa using hjr)]
    · rw [List.getD_eq_getElem _ _ (by simpa using hjr), List.getElem_map,
        List.getElem_map, ← List.getD_eq_getElem _ [] hjr]
    · intro l hl
      rw [List.mem_map] at hl
      obtain ⟨gl, hgl, rfl⟩ := hl
      rw [List.mem_map] at hgl
      obtain ⟨me, hme, rfl⟩ := hgl
      rw [offset_row_length, List.length_zipWith, hlenr me hme, horig,
        Nat.min_self]
  · rw [flatten_row (4 * n) _ j ?_ (by simpa using hjr)]
    · rw [List.getD_eq_getElem _ _ (by simpa using hjr), List.getElem_map,
        ← List.getD_eq_getElem _ [] hjr, hbase]
    · intro l hl
      rw [List.mem_map] at hl
      obtain ⟨me, hme, rfl⟩ := hl
      rw [normal_row_length, hlenr me hme]

/-- A concrete two-frame, one-vertex sequence used as a test vector. -/
def sampleMeshes : List (List VertexSample) :=
  [[⟨⟨0, 0, 0⟩, ⟨1, 0, 0⟩⟩], [⟨⟨3, 4, 0⟩, ⟨0, 1, 0⟩⟩]]

/-- Witness for C6 on `sampleMeshes` at row j = 0. -/
theorem get_vertex_data_rows_reversed_witness :
    (sampleMeshes ≠ [] ∧ (∀ me ∈ sampleMeshes, me.length = 1) ∧
      0 < sampleMeshes.length) ∧
    (∃ offs norms s ofr,
      get_vertex_data sampleMeshes = some (offs, norms, s) ∧
      frame_offsets (sampleMeshes.headD [])
        (sampleMeshes.getD (sampleMeshes.length - 1 - 0) []) = some ofr ∧
      (offs.drop (0 * (4 * 1))).take (4 * 1) = offset_row s ofr ∧
      (norms.drop (0 * (4 * 1))).take (4 * 1) =
        normal_row (sampleMeshes.getD (sampleMeshes.length - 1 - 0) [])) :=
  ⟨⟨by decide, by decide, by decide⟩,
   get_vertex_data_rows_reversed sampleMeshes 1 0 (by decide) (by decide) (by decide)⟩

/-- Claim C7 (code bug): `get_vertex_data` performs no vertex-count
validation.  A frame with fewer vertices than the rest frame (here 0
against 1) is processed silently: the call succeeds and emits a short row
for that frame instead of failing fast with a structural-mismatch error. -/
theorem get_vertex_data_no_mismatch_check :
    get_vertex_data [[(⟨⟨0, 0, 0⟩, ⟨0, 0, 0⟩⟩ : VertexSample)], []] =
      some ([0.5, 0.5, 0.5, 1], [0.5, 0.5, 0.5, 1], 1) := by
  norm_num [get_vertex_data, all_frame_offsets, frame_offsets, vsub, vlen,
    max_offset_length, offset_row, normal_row, Real.sqrt_zero]

/-! ## OBJECT_OT_ProcessAnimMeshes.execute: precondition checks -/

/-- The reasons `execute` reports an error and returns CANCELLED. -/
inductive CancelReason where
  | modifier
  | units
  | vertexLimit
  | frameLimit
deriving DecidableEq

/-- The pieces of pipeline work `execute` performs after its checks, in
program order: per-frame mesh sampling (`get_per_frame_mesh_data`), UV
setup (`create_export_mesh_object`), offset/normal extraction
(`get_vertex_data`), texture baking (`bake_vertex_data`) and mesh export. -/
inductive Work where
  | sampling
  | uvSetup
  | vertexData
  | bake
  | meshExport
deriving DecidableEq

/-- Result of `execute`: CANCELLED with a reported reason, or FINISHED. -/
inductive ExecResult where
  | cancelled (r : CancelReason)
  | finished
deriving DecidableEq

/-- Embedding of the control flow of `OBJECT_OT_ProcessAnimMeshes.execute`:
the modifier check, the unit check, the `vertex_count > 2048` check and the
`frame_count > 1024` check run in this order, each returning CANCELLED
before any pipeline work; only then does the pipeline run.  The second
component lists the work performed, in order. -/
def execute (mods_ok units_ok : Bool) (vertex_count frame_count : ℕ) :
    ExecResult × List Work :=
  if ¬ mods_ok then (.cancelled .modifier, [])
  else if ¬ units_ok then (.cancelled .units, [])
  else if vertex_count > 2048 then (.cancelled .vertexLimit, [])
  else if frame_count > 1024 then (.cancelled .frameLimit, [])
  else (.finished, [.sampling, .uvSetup, .vertexData, .bake, .meshExport])

/-- Claim C8: whenever the vertex count exceeds 2048 or the frame count
exceeds 1024, `execute` returns CANCELLED with some precondition error and
performs no sampling or encoding work at all. -/
theorem execute_limits (mods_ok units_ok : Bool) (vertex_count frame_count : ℕ)
    (h : vertex_count > 2048 ∨ frame_count > 1024) :
    ∃ r, execute mods_ok units_ok vertex_count frame_count =
      (.cancelled r, ([] : List Work)) := by
  by_cases hm : mods_ok = false
  · exact ⟨.modifier, by simp [execute, hm]⟩
  · by_cases hu : units_ok = false
    · exact ⟨.units, by simp [execute, hm, hu]⟩
    · by_cases hv : vertex_count > 2048
      · exact ⟨.vertexLimit, by simp [execute, hm, hu, hv]⟩
      · have hf : frame_count > 1024 := by
          rcases h with h | h
          · exact absurd h hv
          · exact h
        exact ⟨.frameLimit, by simp [execute, hm, hu, hv, hf]⟩

/-- Witness for C8: 3000 vertices, 10 frames, all other checks passing. -/
theorem execute_limits_witness :
    (3000 > 2048 ∨ 10 > 1024) ∧
    (∃ r, execute true true 3000 10 = (.cancelled r, ([] : List Work))) :=
  ⟨Or.inl (by norm_num), execute_limits true true 3000 10 (Or.inl (by norm_num))⟩

end VAT
